import Mathlib

/-!
Verification development for the gym-locm repository: a shallow embedding of
the MCTS search module (gym_locm/algorithms/mcts.py), the exception hierarchy
(gym_locm/exceptions.py), the win-loss reward function (gym_locm/envs/rewards.py)
and the player-order enum (gym_locm/engine/enums.py), together with theorems
settling the frozen claims about them.

The rules engine (GameState, the search-node adapter) is not among the given
source files; where its behaviour matters it is modelled from the spec as an
abstract interface (`Iface`), with each modelling choice recorded in the
corresponding doc comment.
-/

namespace GymLocm

/-- From gym_locm/engine/enums.py: `PlayerOrder` is an IntEnum with
FIRST = 0 and SECOND = 1. -/
inductive PlayerOrder : Type
  | FIRST
  | SECOND
  deriving DecidableEq, Repr

/-- The integer value of a `PlayerOrder` member (IntEnum semantics). -/
def PlayerOrder.toNat : PlayerOrder → ℕ
  | .FIRST => 0
  | .SECOND => 1

/-- The `PlayerOrder(x)` constructor restricted to the values `(p + 1) % 2`
can take (always 0 or 1). -/
def PlayerOrder.ofVal (n : ℕ) : PlayerOrder :=
  if n % 2 = 0 then .FIRST else .SECOND

/-- From gym_locm/engine/enums.py: `opposing(self) = PlayerOrder((self + 1) % 2)`. -/
def PlayerOrder.opposing (p : PlayerOrder) : PlayerOrder :=
  PlayerOrder.ofVal ((p.toNat + 1) % 2)

/-- From gym_locm/exceptions.py: the six concrete error classes. -/
inductive ErrorKind : Type
  | FullHandError
  | EmptyDeckError
  | WardShieldError
  | NotEnoughManaError
  | FullLaneError
  | MalformedActionError
  deriving DecidableEq, Repr, Fintype

/-- From gym_locm/exceptions.py: which concrete error classes are declared as
subclasses of `GameError` (`class FullHandError(GameError)`,
`class EmptyDeckError(GameError)`, `class WardShieldError(GameError)`). -/
def subclassOfGameError : ErrorKind → Bool
  | .FullHandError => true
  | .EmptyDeckError => true
  | .WardShieldError => true
  | _ => false

/-- From gym_locm/exceptions.py: which concrete error classes are declared as
subclasses of `ActionError` (`class NotEnoughManaError(ActionError)`,
`class FullLaneError(ActionError)`, `class MalformedActionError(ActionError)`). -/
def subclassOfActionError : ErrorKind → Bool
  | .NotEnoughManaError => true
  | .FullLaneError => true
  | .MalformedActionError => true
  | _ => false

/-- The interface through which mcts.py uses search nodes, game states, agents
and actions.  Modelled from the spec: the rules engine and the search-node
adapter are not among the given source files, so they are abstracted to exactly
the operations mcts.py calls on them: `node.is_terminal()`, `node.find_children()`,
`node.find_random_child()`, `node.state`, `game.winner`, `game.current_player.id`,
`agents[p].act(game)` and `game.act(action)`.  `clone` is the identity in this
value-semantics embedding (the spec's clone contract: a fully independent copy
with the same content). The `agents` dict handed to `MCTS.__init__` is carried
here, next to the node operations, instead of inside the search state. -/
structure Iface (Node State Action : Type) : Type where
  isTerminal : Node → Bool
  findChildren : Node → List Node
  findRandomChild : Node → Node
  nodeState : Node → State
  winner : State → Option PlayerOrder
  currentPlayer : State → PlayerOrder
  agentAct : PlayerOrder → State → Action
  applyAct : State → Action → State

/-- From mcts.py `MCTS.__init__`: the per-instance statistics tables.
`Q` and `N` are `defaultdict(int)` and `children` is `defaultdict(list)`;
`Q` and `N` are modelled as total functions defaulting to 0 (a defaultdict
read of a missing key observes, and inserts, the default — unobservable in
this model), while `children` keeps key presence explicit (`none` = the node
is not a key) because mcts.py branches on `node in self.children`. -/
structure MCTSState (Node : Type) : Type where
  Q : Node → ℤ
  N : Node → ℕ
  children : Node → Option (List Node)
  exploration_weight : ℝ

namespace MCTS

/-- `MCTS.__init__(agents, exploration_weight=1.41)`: fresh empty tables.
The default value of the `exploration_weight` argument in the source. -/
def defaultExplorationWeight : ℝ := 1.41

/-- The state a fresh `MCTS` instance owns after `__init__`: all three
tables empty. -/
def init (Node : Type) (c : ℝ) : MCTSState Node :=
  { Q := fun _ => 0, N := fun _ => 0, children := fun _ => none,
    exploration_weight := c }

/-- Python's `max(x :: xs, key = f)`: fold over the list keeping the current
maximum, replacing it only on a strictly larger key, so the first element
attaining the maximum is returned. -/
def maxByKey {α β : Type} [LinearOrder β] (f : α → β) : α → List α → α
  | best, [] => best
  | best, x :: xs => if f best < f x then maxByKey f x xs else maxByKey f best xs

/-- From `MCTS.choose`: `score(n)` is `float("-inf")` when `self.N[n] == 0`
and the average reward `self.Q[n] / self.N[n]` otherwise.  `-inf` is `⊥` of
`WithBot ℚ` and the float division of two ints is exact rational division. -/
def score {Node : Type} (st : MCTSState Node) (n : Node) : WithBot ℚ :=
  if st.N n = 0 then ⊥ else ((st.Q n : ℚ) / (st.N n : ℚ) : ℚ)

/-- The two exceptions `MCTS.choose` can raise: the explicit
`RuntimeError` on a terminal node, and `ValueError` from `max` applied to an
empty children list. -/
inductive ChooseErr : Type
  | terminalNode
  | emptyChildren
  deriving DecidableEq, Repr

/-- From `MCTS.choose(node)`: raise on a terminal node; return
`node.find_random_child()` when `node` is not a key of `self.children`;
otherwise return `max(self.children[node], key=score)`. -/
def choose {Node State Action : Type} (iface : Iface Node State Action)
    (st : MCTSState Node) (node : Node) : Except ChooseErr Node :=
  if iface.isTerminal node then .error .terminalNode
  else
    match st.children node with
    | none => .ok (iface.findRandomChild node)
    | some [] => .error .emptyChildren
    | some (c :: cs) => .ok (maxByKey (score st) c cs)

/-- From `MCTS._uct_select`: the UCT score of child `n` under parent `node`,
`self.Q[n] / self.N[n] + self.exploration_weight * math.sqrt(log_n_vertex / self.N[n])`
with `log_n_vertex = math.log(self.N[node])`.  Floats are modelled as real
numbers.  (When `self.N[n] == 0` Python raises ZeroDivisionError and when
`self.N[node] == 0` math.log raises; both are unreachable through
`do_rollout`, and here division by zero is Lean's junk value.) -/
noncomputable def uctScore {Node : Type} (st : MCTSState Node) (node n : Node) : ℝ :=
  (st.Q n : ℝ) / (st.N n : ℝ) +
    st.exploration_weight * Real.sqrt (Real.log (st.N node : ℝ) / (st.N n : ℝ))

/-- Failure modes of `_select`/`_uct_select`: running out of fuel (the Python
`while True` loop not yet done), the defensive `assert` at the start of
`_uct_select` failing, and `max` applied to an empty sequence. -/
inductive SelectErr : Type
  | fuelOut
  | assertFail
  | emptyMax
  deriving DecidableEq, Repr

/-- From `MCTS._uct_select(node)`: first the defensive
`assert all(n in self.children for n in self.children[node])`, then
`max(self.children[node], key=uct)`.  A missing `children` key reads the
defaultdict default `[]`. -/
noncomputable def uct_select {Node : Type} [DecidableEq Node]
    (st : MCTSState Node) (node : Node) : Except SelectErr Node :=
  if ((st.children node).getD []).all (fun n => (st.children n).isSome) then
    match (st.children node).getD [] with
    | [] => .error .emptyMax
    | c :: rest => .ok (maxByKey (uctScore st node) c rest)
  else .error .assertFail

/-- From `MCTS._select(node)`: the `while True` descent, with fuel standing in
for the unbounded loop (`.error .fuelOut` = the loop has not finished within
`fuel` iterations).  Each iteration appends `node` to the path; stops when
`node not in self.children or not self.children[node] or node.is_terminal()`;
otherwise computes `unexplored`, and either pops its last element as the new
leaf (`list.pop()` removes the last item) or descends through `_uct_select`. -/
noncomputable def select {Node State Action : Type} [DecidableEq Node]
    (iface : Iface Node State Action) (st : MCTSState Node) :
    ℕ → Node → Except SelectErr (List Node)
  | 0, _ => .error .fuelOut
  | fuel + 1, node =>
    match st.children node with
    | none => .ok [node]
    | some cs =>
      if cs.isEmpty || iface.isTerminal node then .ok [node]
      else
        match (cs.filter fun c => (st.children c).isNone).getLast? with
        | some n => .ok [node, n]
        | none =>
          match uct_select st node with
          | .error e => .error e
          | .ok nxt => (select iface st fuel nxt).map (node :: ·)

/-- From `MCTS._expand(node)`: a no-op when `node` is already a key of
`self.children`, else `self.children[node] = node.find_children()`. -/
def expand {Node State Action : Type} [DecidableEq Node]
    (iface : Iface Node State Action) (st : MCTSState Node) (node : Node) :
    MCTSState Node :=
  match st.children node with
  | some _ => st
  | none =>
    { st with children := Function.update st.children node (some (iface.findChildren node)) }

/-- From `MCTS._simulate(node)`: `game = node.state.clone()` (identity here),
then `while game.winner is None` ask the agent of `game.current_player` for an
action and apply it; finally `1 if game.winner == PlayerOrder.FIRST else -1`.
Fuel stands in for the unbounded loop (`none` = not finished). -/
def simulate {Node State Action : Type} (iface : Iface Node State Action) :
    ℕ → State → Option ℤ
  | 0, s =>
    match iface.winner s with
    | some w => some (if w = PlayerOrder.FIRST then 1 else -1)
    | none => none
  | fuel + 1, s =>
    match iface.winner s with
    | some w => some (if w = PlayerOrder.FIRST then 1 else -1)
    | none => simulate iface fuel (iface.applyAct s (iface.agentAct (iface.currentPlayer s) s))

/-- One loop iteration of the simulation: the action the agent registered for
the state's current player produces, applied to the state. -/
def simStep {Node State Action : Type} (iface : Iface Node State Action)
    (s : State) : State :=
  iface.applyAct s (iface.agentAct (iface.currentPlayer s) s)

/-- One iteration of the `_backpropagate` loop body at `node`:
`self.N[node] += 1`, then `self.Q[node] += reward` if
`node.state.current_player.id == PlayerOrder.FIRST` else
`self.Q[node] -= reward`. -/
def backpropStep {Node State Action : Type} [DecidableEq Node]
    (iface : Iface Node State Action) (reward : ℤ) (acc : MCTSState Node)
    (node : Node) : MCTSState Node :=
  { acc with
    N := Function.update acc.N node (acc.N node + 1),
    Q := Function.update acc.Q node
      (acc.Q node +
        (if iface.currentPlayer (iface.nodeState node) = PlayerOrder.FIRST
         then reward else -reward)) }

/-- From `MCTS._backpropagate(path, reward)`: run the loop body over
`reversed(path)`. -/
def backpropagate {Node State Action : Type} [DecidableEq Node]
    (iface : Iface Node State Action) (st : MCTSState Node) (path : List Node)
    (reward : ℤ) : MCTSState Node :=
  path.reverse.foldl (backpropStep iface reward) st

/-- From `MCTS.do_rollout(node)`: select a path, take its last element as the
leaf, expand the leaf, simulate from the leaf's state, backpropagate the
reward along the path.  `none` = one of the unbounded loops did not finish
within its fuel (or an exception propagated). -/
noncomputable def do_rollout {Node State Action : Type} [DecidableEq Node]
    (iface : Iface Node State Action) (selFuel simFuel : ℕ)
    (st : MCTSState Node) (node : Node) : Option (MCTSState Node) :=
  match select iface st selFuel node with
  | .error _ => none
  | .ok path =>
    match path.getLast? with
    | none => none
    | some leaf =>
      match simulate iface simFuel (iface.nodeState leaf) with
      | none => none
      | some reward => some (backpropagate iface (expand iface st leaf) path reward)

/-- `k` successive calls `do_rollout(root)` on the same instance (each call
fully completes before the next, as in the source's sequential use). -/
noncomputable def rollouts {Node State Action : Type} [DecidableEq Node]
    (iface : Iface Node State Action) (selFuel simFuel : ℕ) (root : Node) :
    ℕ → MCTSState Node → Option (MCTSState Node)
  | 0, st => some st
  | k + 1, st =>
    match rollouts iface selFuel simFuel root k st with
    | none => none
    | some st' => do_rollout iface selFuel simFuel st' root

/-- `sum(self.N[child] for child in self.children[root])`, the defaultdict
read of a missing key being the empty list. -/
def childSum {Node : Type} (st : MCTSState Node) (node : Node) : ℕ :=
  (((st.children node).getD []).map st.N).sum

/-- One public operation on an `MCTS` instance: a `do_rollout(root)` call or a
`choose(root)` call. -/
inductive Op (Node : Type) : Type
  | rollout (root : Node)
  | chooseCall (root : Node)

/-- The effect of one public operation on the instance's tables.  `choose`
only reads the tables (its defaultdict reads insert default values, which the
total-function model renders unobservable), so it leaves the state unchanged. -/
noncomputable def applyOp {Node State Action : Type} [DecidableEq Node]
    (iface : Iface Node State Action) (selFuel simFuel : ℕ)
    (st : MCTSState Node) : Op Node → Option (MCTSState Node)
  | .rollout root => do_rollout iface selFuel simFuel st root
  | .chooseCall _ => some st

/-- A world of MCTS instances indexed by instance id, each owning its own
tables (the constructor creates fresh `defaultdict`s per instance); running a
sequence of operations, each addressed to one instance. -/
noncomputable def worldRun {Node State Action : Type} [DecidableEq Node]
    (iface : Iface Node State Action) (selFuel simFuel : ℕ) :
    List (ℕ × Op Node) → (ℕ → MCTSState Node) → Option (ℕ → MCTSState Node)
  | [], w => some w
  | (i, op) :: rest, w =>
    match applyOp iface selFuel simFuel (w i) op with
    | none => none
    | some st => worldRun iface selFuel simFuel rest (Function.update w i st)

/-- Invariant of the tables: every recorded children list is exactly the
node's `find_children()` result (the only writer, `_expand`, writes exactly
that). -/
def childrenOk {Node State Action : Type} (iface : Iface Node State Action)
    (st : MCTSState Node) : Prop :=
  ∀ n cs, st.children n = some cs → cs = iface.findChildren n

end MCTS

namespace WinLossRewardFunction

/-- From gym_locm/envs/rewards.py `WinLossRewardFunction.calculate(state,
for_player)`: 1 if `state.winner == for_player`, -1 if
`state.winner == for_player.opposing()`, else 0.  Only `state.winner`
(an optional `PlayerOrder`) is read from the state, so the state is passed as
that field; `None == for_player` is false for an enum member. -/
def calculate (winner : Option PlayerOrder) (for_player : PlayerOrder) : ℤ :=
  if winner = some for_player then 1
  else if winner = some for_player.opposing then -1
  else 0

end WinLossRewardFunction

/-- A one-point game for evaluating the search operations on concrete input:
every node is terminal with no children, and every state is already won by
FIRST. -/
def unitIface : Iface ℕ Unit Unit :=
  { isTerminal := fun _ => true
    findChildren := fun _ => []
    findRandomChild := fun _ => 0
    nodeState := fun _ => ()
    winner := fun _ => some PlayerOrder.FIRST
    currentPlayer := fun _ => PlayerOrder.FIRST
    agentAct := fun _ _ => ()
    applyAct := fun s _ => s }

/-- The one-point game with no node terminal, for exercising the non-terminal
branches of `choose`. -/
def openIface : Iface ℕ Unit Unit :=
  { unitIface with isTerminal := fun _ => false }

/-- A concrete table state: node 0 is recorded with the single child 1, and no
node has ever been visited. -/
def allUnvisitedSt : MCTSState ℕ :=
  { Q := fun _ => 0, N := fun _ => 0,
    children := fun n => if n = 0 then some [1] else none,
    exploration_weight := MCTS.defaultExplorationWeight }

namespace MCTS

theorem maxByKey_mem {α β : Type} [LinearOrder β] (f : α → β) :
    ∀ (l : List α) (a : α), maxByKey f a l ∈ a :: l := by
  intro l
  induction l with
  | nil => intro a; simp [maxByKey]
  | cons x xs ih =>
    intro a
    simp only [maxByKey]
    split
    · have h := ih x
      simp only [List.mem_cons] at h ⊢
      tauto
    · have h := ih a
      simp only [List.mem_cons] at h ⊢
      tauto

theorem maxByKey_le {α β : Type} [LinearOrder β] (f : α → β) :
    ∀ (l : List α) (a b : α), b ∈ a :: l → f b ≤ f (maxByKey f a l) := by
  intro l
  induction l with
  | nil =>
    intro a b hb
    simp only [List.mem_cons, List.not_mem_nil, or_false] at hb
    subst hb
    simp [maxByKey]
  | cons x xs ih =>
    intro a b hb
    rw [maxByKey]
    by_cases hlt : f a < f x
    · rw [if_pos hlt]
      rcases List.mem_cons.mp hb with h1 | h1
      · rw [h1]
        exact le_trans (le_of_lt hlt) (ih x x (List.mem_cons_self x xs))
      · exact ih x b h1
    · rw [if_neg hlt]
      rcases List.mem_cons.mp hb with h1 | h1
      · rw [h1]
        exact ih a a (List.mem_cons_self a xs)
      · rcases List.mem_cons.mp h1 with h2 | h2
        · rw [h2]
          exact le_trans (not_lt.mp hlt) (ih a a (List.mem_cons_self a xs))
        · exact ih a b (List.mem_cons.mpr (Or.inr h2))

/-- Python's `max` keeps the current maximum and replaces it only on a
strictly larger key, so everything strictly before the returned element has a
strictly smaller key: the first maximizer is returned. -/
theorem maxByKey_first {α β : Type} [LinearOrder β] (f : α → β) :
    ∀ (l : List α) (a : α),
      ∃ l1 l2, a :: l = l1 ++ maxByKey f a l :: l2 ∧
        ∀ x ∈ l1, f x < f (maxByKey f a l) := by
  intro l
  induction l with
  | nil =>
    intro a
    exact ⟨[], [], by simp [maxByKey], by simp⟩
  | cons x xs ih =>
    intro a
    rw [maxByKey]
    by_cases hlt : f a < f x
    · rw [if_pos hlt]
      obtain ⟨l1, l2, heq, hlt1⟩ := ih x
      refine ⟨a :: l1, l2, ?_, ?_⟩
      · rw [List.cons_append, ← heq]
      · intro y hy
        rcases List.mem_cons.mp hy with rfl | hy2
        · exact lt_of_lt_of_le hlt (maxByKey_le f xs x x (List.mem_cons_self x xs))
        · exact hlt1 y hy2
    · rw [if_neg hlt]
      obtain ⟨l1, l2, heq, hlt1⟩ := ih a
      cases l1 with
      | nil =>
        simp only [List.nil_append] at heq
        refine ⟨[], x :: xs, ?_, by simp⟩
        rw [List.nil_append, ← (List.cons.inj heq).1]
      | cons a2 l1t =>
        rw [List.cons_append] at heq
        have ha2 : a = a2 := (List.cons.inj heq).1
        have hxs : xs = l1t ++ maxByKey f a xs :: l2 := (List.cons.inj heq).2
        refine ⟨a :: x :: l1t, l2, ?_, ?_⟩
        · rw [List.cons_append, List.cons_append, ← hxs]
        · intro y hy
          have hax : f a < f (maxByKey f a xs) := by
            have h5 := hlt1 a2 (List.mem_cons_self a2 l1t)
            rw [← ha2] at h5
            exact h5
          rcases List.mem_cons.mp hy with rfl | hy2
          · exact hax
          · rcases List.mem_cons.mp hy2 with rfl | hy3
            · exact lt_of_le_of_lt (not_lt.mp hlt) hax
            · exact hlt1 y (List.mem_cons_of_mem a2 hy3)

variable {Node State Action : Type} [DecidableEq Node]

theorem backpropStep_N (iface : Iface Node State Action) (r : ℤ)
    (st : MCTSState Node) (a n : Node) :
    (backpropStep iface r st a).N n = if n = a then st.N n + 1 else st.N n := by
  simp only [backpropStep, Function.update_apply]
  split <;> simp_all

theorem backpropStep_Q (iface : Iface Node State Action) (r : ℤ)
    (st : MCTSState Node) (a n : Node) :
    (backpropStep iface r st a).Q n =
      if n = a then
        st.Q n + (if iface.currentPlayer (iface.nodeState n) = PlayerOrder.FIRST
                  then r else -r)
      else st.Q n := by
  simp only [backpropStep, Function.update_apply]
  split <;> simp_all

theorem backpropLoop_N (iface : Iface Node State Action) (r : ℤ) (n : Node) :
    ∀ (l : List Node) (st : MCTSState Node),
      (l.foldl (backpropStep iface r) st).N n = st.N n + l.count n := by
  intro l
  induction l with
  | nil => intro st; simp
  | cons a l ih =>
    intro st
    by_cases h : n = a
    · subst h
      rw [List.foldl_cons, ih, backpropStep_N, List.count_cons_self, if_pos rfl]
      omega
    · rw [List.foldl_cons, ih, backpropStep_N, List.count_cons_of_ne h, if_neg h]

theorem backpropLoop_Q (iface : Iface Node State Action) (r : ℤ) (n : Node) :
    ∀ (l : List Node) (st : MCTSState Node),
      (l.foldl (backpropStep iface r) st).Q n =
        st.Q n + (l.count n : ℤ) *
          (if iface.currentPlayer (iface.nodeState n) = PlayerOrder.FIRST
           then r else -r) := by
  intro l
  induction l with
  | nil => intro st; simp
  | cons a l ih =>
    intro st
    by_cases h : n = a
    · subst h
      rw [List.foldl_cons, ih, backpropStep_Q, List.count_cons_self, if_pos rfl]
      push_cast
      by_cases hp : iface.currentPlayer (iface.nodeState n) = PlayerOrder.FIRST <;>
        simp [hp] <;> ring
    · rw [List.foldl_cons, ih, backpropStep_Q, List.count_cons_of_ne h, if_neg h]

theorem backpropLoop_children (iface : Iface Node State Action) (r : ℤ) :
    ∀ (l : List Node) (st : MCTSState Node),
      (l.foldl (backpropStep iface r) st).children = st.children := by
  intro l
  induction l with
  | nil => intro st; rfl
  | cons a l ih => intro st; rw [List.foldl_cons, ih]; rfl

theorem backpropagate_N (iface : Iface Node State Action)
    (st : MCTSState Node) (path : List Node) (r : ℤ) (n : Node) :
    (backpropagate iface st path r).N n = st.N n + path.count n := by
  rw [backpropagate, backpropLoop_N, List.count_reverse]

theorem backpropagate_Q (iface : Iface Node State Action)
    (st : MCTSState Node) (path : List Node) (r : ℤ) (n : Node) :
    (backpropagate iface st path r).Q n =
      st.Q n + (path.count n : ℤ) *
        (if iface.currentPlayer (iface.nodeState n) = PlayerOrder.FIRST
         then r else -r) := by
  rw [backpropagate, backpropLoop_Q, List.count_reverse]

theorem backpropagate_children (iface : Iface Node State Action)
    (st : MCTSState Node) (path : List Node) (r : ℤ) :
    (backpropagate iface st path r).children = st.children := by
  rw [backpropagate, backpropLoop_children]

theorem expand_eq_of_mem (iface : Iface Node State Action)
    {st : MCTSState Node} {node : Node} {cs : List Node}
    (h : st.children node = some cs) : expand iface st node = st := by
  simp only [expand, h]

theorem expand_eq_of_not_mem (iface : Iface Node State Action)
    {st : MCTSState Node} {node : Node} (h : st.children node = none) :
    expand iface st node =
      { st with children :=
          Function.update st.children node (some (iface.findChildren node)) } := by
  simp only [expand, h]

theorem simulate_pm_one {Node' State' Action' : Type}
    (iface : Iface Node' State' Action') :
    ∀ (fuel : ℕ) (s : State') (r : ℤ),
      simulate iface fuel s = some r → r = 1 ∨ r = -1 := by
  intro fuel
  induction fuel with
  | zero =>
    intro s r h
    rw [simulate] at h
    cases hw : iface.winner s with
    | none => rw [hw] at h; exact absurd h (by simp)
    | some w =>
      rw [hw] at h
      have hr : (if w = PlayerOrder.FIRST then (1 : ℤ) else -1) = r := by
        exact Option.some.inj h
      by_cases hw2 : w = PlayerOrder.FIRST
      · rw [if_pos hw2] at hr; omega
      · rw [if_neg hw2] at hr; omega
  | succ fuel ih =>
    intro s r h
    rw [simulate] at h
    cases hw : iface.winner s with
    | none => rw [hw] at h; exact ih _ _ h
    | some w =>
      rw [hw] at h
      have hr : (if w = PlayerOrder.FIRST then (1 : ℤ) else -1) = r := by
        exact Option.some.inj h
      by_cases hw2 : w = PlayerOrder.FIRST
      · rw [if_pos hw2] at hr; omega
      · rw [if_neg hw2] at hr; omega

omit [DecidableEq Node] in
theorem simulate_run_aux (iface : Iface Node State Action) :
    ∀ (fuel : ℕ) (s : State) (r : ℤ), simulate iface fuel s = some r →
      ∃ n : ℕ, n ≤ fuel ∧
        (∀ m, m < n → iface.winner ((simStep iface)^[m] s) = none) ∧
        ∃ w, iface.winner ((simStep iface)^[n] s) = some w ∧
          r = if w = PlayerOrder.FIRST then 1 else -1 := by
  intro fuel
  induction fuel with
  | zero =>
    intro s r h
    rw [simulate] at h
    cases hw : iface.winner s with
    | none => rw [hw] at h; exact absurd h (by simp)
    | some w =>
      rw [hw] at h
      refine ⟨0, le_refl 0, fun m hm => absurd hm (Nat.not_lt_zero m), w, ?_, ?_⟩
      · simpa using hw
      · exact (Option.some.inj h).symm
  | succ fuel ih =>
    intro s r h
    rw [simulate] at h
    cases hw : iface.winner s with
    | some w =>
      rw [hw] at h
      refine ⟨0, Nat.zero_le _, fun m hm => absurd hm (Nat.not_lt_zero m), w, ?_, ?_⟩
      · simpa using hw
      · exact (Option.some.inj h).symm
    | none =>
      rw [hw] at h
      have h' : simulate iface fuel (simStep iface s) = some r := h
      obtain ⟨n, hn, hpre, w, hwin, hr⟩ := ih (simStep iface s) r h'
      refine ⟨n + 1, Nat.succ_le_succ hn, ?_, w, ?_, hr⟩
      · intro m hm
        cases m with
        | zero => simpa using hw
        | succ k =>
          rw [Function.iterate_succ_apply]
          exact hpre k (Nat.lt_of_succ_lt_succ hm)
      · rw [Function.iterate_succ_apply]
        exact hwin

end MCTS

/-- C2: `_backpropagate(path, reward)` walks the path and, for every node on
the (duplicate-free) path, increments its visit count `N` by exactly 1 and
adds `+reward` to its cumulative reward `Q` when that node's state's current
player is FIRST and `-reward` otherwise; the statistics of every node off the
path, and the whole `children` table, are unchanged. -/
theorem backpropagate_updates {Node State Action : Type} [DecidableEq Node]
    (iface : Iface Node State Action) (st : MCTSState Node) (path : List Node)
    (reward : ℤ) (hnd : path.Nodup) (n : Node) :
    ((MCTS.backpropagate iface st path reward).N n =
      if n ∈ path then st.N n + 1 else st.N n) ∧
    ((MCTS.backpropagate iface st path reward).Q n =
      if n ∈ path then
        st.Q n + (if iface.currentPlayer (iface.nodeState n) = PlayerOrder.FIRST
                  then reward else -reward)
      else st.Q n) ∧
    (MCTS.backpropagate iface st path reward).children = st.children := by
  refine ⟨?_, ?_, MCTS.backpropagate_children iface st path reward⟩
  · rw [MCTS.backpropagate_N]
    by_cases h : n ∈ path
    · rw [if_pos h, List.count_eq_one_of_mem hnd h]
    · rw [if_neg h, List.count_eq_zero_of_not_mem h]
      omega
  · rw [MCTS.backpropagate_Q]
    by_cases h : n ∈ path
    · rw [if_pos h, List.count_eq_one_of_mem hnd h]
      push_cast
      ring
    · rw [if_neg h, List.count_eq_zero_of_not_mem h]
      push_cast
      ring

/-- Witness for C2 at the concrete path `[0, 1]` in the one-point game. -/
theorem backpropagate_updates_wit :
    (MCTS.backpropagate unitIface (MCTS.init ℕ MCTS.defaultExplorationWeight)
        [0, 1] 1).N 0 =
      if 0 ∈ ([0, 1] : List ℕ) then
        (MCTS.init ℕ MCTS.defaultExplorationWeight).N 0 + 1
      else (MCTS.init ℕ MCTS.defaultExplorationWeight).N 0 :=
  (backpropagate_updates unitIface (MCTS.init ℕ MCTS.defaultExplorationWeight)
    [0, 1] 1 (by decide) 0).1

/-- C7: `_expand` is idempotent: a no-op (tables unchanged) on a node already
recorded in `children`, and otherwise it records exactly `find_children()` for
that node, touching neither `Q` nor `N` nor any other node's `children` entry;
expanding twice equals expanding once. -/
theorem expand_idempotent {Node State Action : Type} [DecidableEq Node]
    (iface : Iface Node State Action) (st : MCTSState Node) (node : Node) :
    ((st.children node).isSome = true → MCTS.expand iface st node = st) ∧
    (st.children node = none →
      (MCTS.expand iface st node).children node = some (iface.findChildren node)) ∧
    MCTS.expand iface (MCTS.expand iface st node) node = MCTS.expand iface st node ∧
    (MCTS.expand iface st node).Q = st.Q ∧
    (MCTS.expand iface st node).N = st.N ∧
    (∀ m, m ≠ node → (MCTS.expand iface st node).children m = st.children m) := by
  cases h : st.children node with
  | some cs =>
    have he : MCTS.expand iface st node = st := MCTS.expand_eq_of_mem iface h
    refine ⟨fun _ => he, ?_, ?_, ?_, ?_, ?_⟩
    · intro h0
      exact Option.noConfusion h0
    · rw [he, he]
    · rw [he]
    · rw [he]
    · intro m _
      rw [he]
  | none =>
    have he : MCTS.expand iface st node =
        { st with children :=
            Function.update st.children node (some (iface.findChildren node)) } :=
      MCTS.expand_eq_of_not_mem iface h
    have hset : (MCTS.expand iface st node).children node =
        some (iface.findChildren node) := by
      rw [he]
      exact Function.update_same node _ st.children
    refine ⟨?_, fun _ => hset, ?_, ?_, ?_, ?_⟩
    · intro h0
      exact absurd h0 (by simp)
    · exact MCTS.expand_eq_of_mem iface hset
    · rw [he]
    · rw [he]
    · intro m hm
      rw [he]
      exact Function.update_noteq hm _ st.children

/-- C5: a terminating run of `_simulate` is a play of the agent-driven step
function from the (cloned, value-identical) leaf state: no winner strictly
before some step `n`, a winner `w` at step `n`, and the reward is 1 when `w`
is FIRST and -1 in every other case (in particular when SECOND wins). -/
theorem simulate_run {Node State Action : Type}
    (iface : Iface Node State Action) (fuel : ℕ) (s : State) (r : ℤ)
    (h : MCTS.simulate iface fuel s = some r) :
    ∃ n : ℕ, n ≤ fuel ∧
      (∀ m, m < n → iface.winner ((MCTS.simStep iface)^[m] s) = none) ∧
      ∃ w, iface.winner ((MCTS.simStep iface)^[n] s) = some w ∧
        r = if w = PlayerOrder.FIRST then 1 else -1 :=
  MCTS.simulate_run_aux iface fuel s r h

/-- Witness for C5: the immediately-won one-point game simulates to reward 1. -/
theorem simulate_run_wit :
    ∃ n : ℕ, n ≤ 0 ∧
      (∀ m, m < n → unitIface.winner ((MCTS.simStep unitIface)^[m] ()) = none) ∧
      ∃ w, unitIface.winner ((MCTS.simStep unitIface)^[n] ()) = some w ∧
        (1 : ℤ) = if w = PlayerOrder.FIRST then 1 else -1 :=
  simulate_run unitIface 0 () 1 rfl

/-- C9: the six error kinds split into the `GameError` family
(FullHandError, EmptyDeckError, WardShieldError) and the `ActionError`
family (NotEnoughManaError, FullLaneError, MalformedActionError); the
families cover all six kinds and no kind belongs to both. -/
theorem error_families_partition :
    (subclassOfGameError .FullHandError = true ∧
      subclassOfGameError .EmptyDeckError = true ∧
      subclassOfGameError .WardShieldError = true) ∧
    (subclassOfActionError .NotEnoughManaError = true ∧
      subclassOfActionError .FullLaneError = true ∧
      subclassOfActionError .MalformedActionError = true) ∧
    (∀ e : ErrorKind, ¬(subclassOfGameError e = true ∧ subclassOfActionError e = true)) ∧
    (∀ e : ErrorKind, subclassOfGameError e = true ∨ subclassOfActionError e = true) := by
  decide

/-- C10: `WinLossRewardFunction.calculate` returns exactly 1 iff the winner is
`for_player`, exactly -1 iff the winner is `for_player`'s opposing player, and
0 in every other case, in particular when there is no winner; the MCTS
simulation reward, in contrast, never returns 0. -/
theorem winloss_calculate_cases (w : Option PlayerOrder) (p : PlayerOrder) :
    (WinLossRewardFunction.calculate w p = 1 ↔ w = some p) ∧
    (WinLossRewardFunction.calculate w p = -1 ↔ w = some p.opposing) ∧
    (WinLossRewardFunction.calculate w p = 0 ↔ (w ≠ some p ∧ w ≠ some p.opposing)) ∧
    WinLossRewardFunction.calculate none p = 0 ∧
    (∀ (Node State Action : Type) (iface : Iface Node State Action)
      (fuel : ℕ) (s : State) (r : ℤ),
        MCTS.simulate iface fuel s = some r → r ≠ 0) := by
  refine ⟨?_, ?_, ?_, ?_, ?_⟩
  · rcases w with _ | q <;> cases p <;> first | decide | (cases q <;> decide)
  · rcases w with _ | q <;> cases p <;> first | decide | (cases q <;> decide)
  · rcases w with _ | q <;> cases p <;> first | decide | (cases q <;> decide)
  · cases p <;> decide
  · intro N S A iface fuel s r h
    rcases MCTS.simulate_pm_one iface fuel s r h with h1 | h1 <;> omega

namespace MCTS

variable {Node State Action : Type} [DecidableEq Node]

theorem select_zero (iface : Iface Node State Action) (st : MCTSState Node)
    (node : Node) : select iface st 0 node = .error .fuelOut := by
  rw [select]

theorem select_of_none {st : MCTSState Node} {node : Node}
    (iface : Iface Node State Action) (fuel : ℕ)
    (h : st.children node = none) :
    select iface st (fuel + 1) node = .ok [node] := by
  rw [select]
  simp [h]

theorem select_of_stop {st : MCTSState Node} {node : Node} {cs : List Node}
    (iface : Iface Node State Action) (fuel : ℕ)
    (h : st.children node = some cs)
    (h2 : (cs.isEmpty || iface.isTerminal node) = true) :
    select iface st (fuel + 1) node = .ok [node] := by
  rw [select]
  simp [h, h2]

theorem select_of_unexplored {st : MCTSState Node} {node n : Node}
    {cs : List Node} (iface : Iface Node State Action) (fuel : ℕ)
    (h : st.children node = some cs)
    (h2 : (cs.isEmpty || iface.isTerminal node) = false)
    (h3 : (cs.filter fun c => (st.children c).isNone).getLast? = some n) :
    select iface st (fuel + 1) node = .ok [node, n] := by
  rw [select]
  simp [h, h2, h3]

theorem select_of_uct {st : MCTSState Node} {node u : Node} {cs : List Node}
    (iface : Iface Node State Action) (fuel : ℕ)
    (h : st.children node = some cs)
    (h2 : (cs.isEmpty || iface.isTerminal node) = false)
    (h3 : (cs.filter fun c => (st.children c).isNone).getLast? = none)
    (h4 : uct_select st node = .ok u) :
    select iface st (fuel + 1) node = (select iface st fuel u).map (node :: ·) := by
  rw [select]
  simp [h, h2, h3, h4]

theorem uct_select_ok {st : MCTSState Node} {node c : Node} {rest : List Node}
    (h : st.children node = some (c :: rest))
    (hall : ∀ x ∈ c :: rest, (st.children x).isSome = true) :
    uct_select st node = .ok (maxByKey (uctScore st node) c rest) := by
  have hcond : ((st.children node).getD []).all
      (fun n => (st.children n).isSome) = true := by
    rw [h, Option.getD_some]
    exact List.all_eq_true.mpr hall
  rw [uct_select, if_pos hcond, h]
  rfl

omit [DecidableEq Node] in
/-- A children list with no unexplored member (the filtered list is empty)
consists entirely of keys of the `children` table. -/
theorem all_some_of_filter_nil {st : MCTSState Node} {cs : List Node}
    (h : cs.filter (fun c => (st.children c).isNone) = []) :
    ∀ x ∈ cs, (st.children x).isSome = true := by
  intro x hx
  have hni := List.filter_eq_nil_iff.mp h x hx
  cases hca : st.children x with
  | none => rw [hca] at hni; simp at hni
  | some v => simp

end MCTS

/-- C3 counterexample: at a non-terminal node whose recorded children all have
zero visits, `choose` does return a zero-visit child (here the only child, 1),
refuting that a child with zero visits is never chosen by the final
selection. -/
theorem choose_zero_visit_child_cex :
    MCTS.choose openIface allUnvisitedSt 0 = Except.ok 1 ∧
    openIface.isTerminal 0 = false ∧
    allUnvisitedSt.children 0 = some [1] ∧
    allUnvisitedSt.N 1 = 0 :=
  ⟨rfl, rfl, rfl, rfl⟩

/-- C3 (amended): `choose` signals an error on a terminal node; on a
non-terminal node absent from the children table it returns
`find_random_child()`; otherwise it returns a recorded child maximizing the
average reward `Q/N` (zero visits scoring bottom) — more precisely the first
maximizer: everything before the returned child in the recorded list scores
strictly less.  A zero-visit child is therefore never chosen whenever some
recorded child has a positive visit count; when every recorded child has
zero visits the head of the recorded list (itself zero-visit) is returned. -/
theorem choose_spec {Node State Action : Type}
    (iface : Iface Node State Action) (st : MCTSState Node) (node : Node) :
    (iface.isTerminal node = true →
      MCTS.choose iface st node = .error .terminalNode) ∧
    (iface.isTerminal node = false → st.children node = none →
      MCTS.choose iface st node = .ok (iface.findRandomChild node)) ∧
    (∀ c cs, iface.isTerminal node = false → st.children node = some (c :: cs) →
      ∃ m, MCTS.choose iface st node = .ok m ∧ m ∈ c :: cs ∧
        (∀ x ∈ c :: cs, MCTS.score st x ≤ MCTS.score st m) ∧
        (∃ l1 l2, c :: cs = l1 ++ m :: l2 ∧
          ∀ x ∈ l1, MCTS.score st x < MCTS.score st m) ∧
        ((∃ x ∈ c :: cs, 0 < st.N x) → 0 < st.N m) ∧
        ((∀ x ∈ c :: cs, st.N x = 0) → m = c)) := by
  refine ⟨?_, ?_, ?_⟩
  · intro h
    simp [MCTS.choose, h]
  · intro h1 h2
    simp [MCTS.choose, h1, h2]
  · intro c cs h1 h2
    refine ⟨MCTS.maxByKey (MCTS.score st) c cs, ?_, MCTS.maxByKey_mem _ cs c,
      fun x hx => MCTS.maxByKey_le _ cs c x hx,
      MCTS.maxByKey_first (MCTS.score st) cs c, ?_, ?_⟩
    · simp [MCTS.choose, h1, h2]
    · rintro ⟨x, hx, hNx⟩
      by_contra hm
      have hm0 : st.N (MCTS.maxByKey (MCTS.score st) c cs) = 0 := by omega
      have hbot : MCTS.score st (MCTS.maxByKey (MCTS.score st) c cs) = ⊥ := by
        simp [MCTS.score, hm0]
      have hle := MCTS.maxByKey_le (MCTS.score st) cs c x hx
      rw [hbot] at hle
      have hxbot : MCTS.score st x = ⊥ := le_bot_iff.mp hle
      have hxval : MCTS.score st x = ((st.Q x : ℚ) / (st.N x : ℚ) : ℚ) := by
        rw [MCTS.score, if_neg (by omega)]
      rw [hxval] at hxbot
      exact WithBot.coe_ne_bot hxbot
    · intro hz
      obtain ⟨l1, l2, heq, hstrict⟩ := MCTS.maxByKey_first (MCTS.score st) cs c
      cases l1 with
      | nil =>
        simp only [List.nil_append] at heq
        exact ((List.cons.inj heq).1).symm
      | cons y l1t =>
        exfalso
        have hy : y ∈ c :: cs := by
          rw [heq]
          exact List.mem_append_left _ (List.mem_cons_self y l1t)
        have hsy : MCTS.score st y = ⊥ := by
          rw [MCTS.score, if_pos (hz y hy)]
        have hmm := MCTS.maxByKey_mem (MCTS.score st) cs c
        have hsm : MCTS.score st (MCTS.maxByKey (MCTS.score st) c cs) = ⊥ := by
          rw [MCTS.score, if_pos (hz _ hmm)]
        have hlt := hstrict y (List.mem_cons_self y l1t)
        rw [hsy, hsm] at hlt
        exact lt_irrefl ⊥ hlt

/-- C6: the selection descent can never end in the assertion-failure outcome
of `_uct_select`: whenever `_select` hands a node to `_uct_select`, all of
that node's recorded children are already keys of the children table, so the
defensive assertion holds on every execution (in particular every one driven
by `do_rollout`). -/
theorem select_no_assert_fail {Node State Action : Type} [DecidableEq Node]
    (iface : Iface Node State Action) (st : MCTSState Node) :
    ∀ (fuel : ℕ) (node : Node),
      MCTS.select iface st fuel node ≠ Except.error MCTS.SelectErr.assertFail := by
  intro fuel
  induction fuel with
  | zero =>
    intro node h
    rw [MCTS.select_zero] at h
    exact MCTS.SelectErr.noConfusion (Except.error.inj h)
  | succ fuel ih =>
    intro node h
    cases hc : st.children node with
    | none =>
      rw [MCTS.select_of_none iface fuel hc] at h
      exact Except.noConfusion h
    | some cs =>
      by_cases ht : (cs.isEmpty || iface.isTerminal node) = true
      · rw [MCTS.select_of_stop iface fuel hc ht] at h
        exact Except.noConfusion h
      · rw [Bool.not_eq_true] at ht
        cases hu : (cs.filter fun c => (st.children c).isNone).getLast? with
        | some n =>
          rw [MCTS.select_of_unexplored iface fuel hc ht hu] at h
          exact Except.noConfusion h
        | none =>
          have hnil : cs.filter (fun c => (st.children c).isNone) = [] :=
            List.getLast?_eq_none_iff.mp hu
          have hall := MCTS.all_some_of_filter_nil hnil
          obtain ⟨c, rest, rfl⟩ : ∃ c rest, cs = c :: rest := by
            cases cs with
            | nil => simp at ht
            | cons c rest => exact ⟨c, rest, rfl⟩
          rw [MCTS.select_of_uct iface fuel hc ht hu
            (MCTS.uct_select_ok hc hall)] at h
          cases hsel : MCTS.select iface st fuel
              (MCTS.maxByKey (MCTS.uctScore st node) c rest) with
          | error e =>
            rw [hsel] at h
            simp only [Except.map] at h
            have he : e = MCTS.SelectErr.assertFail := Except.error.inj h
            rw [he] at hsel
            exact ih _ hsel
          | ok p =>
            rw [hsel] at h
            simp only [Except.map] at h
            exact Except.noConfusion h

/-- C4: one iteration of the selection loop: at a node that is terminal,
unexpanded or has an empty children list the descent stops with that node as
the leaf; at a node with a child missing from the children table the descent
stops with such a child appended as the leaf; otherwise (fully expanded,
non-terminal) the descent moves to a recorded child maximizing the UCT score
`Q[n]/N[n] + c*sqrt(ln N[p] / N[n])` and continues from it. -/
theorem select_step_spec {Node State Action : Type} [DecidableEq Node]
    (iface : Iface Node State Action) (st : MCTSState Node) (node : Node)
    (fuel : ℕ) :
    (st.children node = none → MCTS.select iface st (fuel + 1) node = .ok [node]) ∧
    (∀ cs, st.children node = some cs → (cs = [] ∨ iface.isTerminal node = true) →
      MCTS.select iface st (fuel + 1) node = .ok [node]) ∧
    (∀ cs n, st.children node = some cs → iface.isTerminal node = false →
      (cs.filter fun c => (st.children c).isNone).getLast? = some n →
      MCTS.select iface st (fuel + 1) node = .ok [node, n] ∧
        n ∈ cs ∧ st.children n = none) ∧
    (∀ c cs, st.children node = some (c :: cs) → iface.isTerminal node = false →
      ((c :: cs).filter fun x => (st.children x).isNone) = [] →
      ∃ u, u ∈ c :: cs ∧
        (∀ x ∈ c :: cs, MCTS.uctScore st node x ≤ MCTS.uctScore st node u) ∧
        MCTS.select iface st (fuel + 1) node =
          (MCTS.select iface st fuel u).map (node :: ·)) := by
  refine ⟨?_, ?_, ?_, ?_⟩
  · intro h
    exact MCTS.select_of_none iface fuel h
  · intro cs h h2
    refine MCTS.select_of_stop iface fuel h ?_
    rcases h2 with h2 | h2
    · rw [h2]
      rfl
    · rw [h2, Bool.or_true]
  · intro cs n h ht h3
    have hmem : n ∈ cs.filter fun c => (st.children c).isNone :=
      List.mem_of_getLast?_eq_some h3
    have hn := List.mem_filter.mp hmem
    refine ⟨?_, hn.1, Option.isNone_iff_eq_none.mp hn.2⟩
    refine MCTS.select_of_unexplored iface fuel h ?_ h3
    cases hcs : cs.isEmpty
    · rw [ht]
      rfl
    · have hcs' : cs = [] := List.isEmpty_iff.mp (by rw [hcs])
      rw [hcs'] at hmem
      simp at hmem
  · intro c cs h ht h3
    have hall := MCTS.all_some_of_filter_nil h3
    refine ⟨MCTS.maxByKey (MCTS.uctScore st node) c cs,
      MCTS.maxByKey_mem _ cs c, fun x hx => MCTS.maxByKey_le _ cs c x hx, ?_⟩
    refine MCTS.select_of_uct iface fuel h ?_ ?_ (MCTS.uct_select_ok h hall)
    · rw [ht, Bool.or_false]
      rfl
    · exact List.getLast?_eq_none_iff.mpr h3

namespace MCTS

variable {Node State Action : Type} [DecidableEq Node]

omit [DecidableEq Node] in
theorem childrenOk_init (iface : Iface Node State Action) (c : ℝ) :
    childrenOk iface (init Node c) := by
  intro n cs h
  exact Option.noConfusion h

theorem expand_N (iface : Iface Node State Action) (st : MCTSState Node)
    (node : Node) : (expand iface st node).N = st.N := by
  cases h : st.children node with
  | some cs => rw [expand_eq_of_mem iface h]
  | none => rw [expand_eq_of_not_mem iface h]

theorem expand_children_of_some (iface : Iface Node State Action)
    {st : MCTSState Node} {node n : Node} {cs : List Node}
    (h : st.children n = some cs) :
    (expand iface st node).children n = some cs := by
  cases hc : st.children node with
  | some cs2 =>
    rw [expand_eq_of_mem iface hc]
    exact h
  | none =>
    rw [expand_eq_of_not_mem iface hc]
    have hne : n ≠ node := by
      intro he
      rw [he, hc] at h
      exact Option.noConfusion h
    show Function.update st.children node (some (iface.findChildren node)) n = some cs
    rw [Function.update_noteq hne]
    exact h

theorem childrenOk_expand (iface : Iface Node State Action)
    {st : MCTSState Node} (hok : childrenOk iface st) (node : Node) :
    childrenOk iface (expand iface st node) := by
  intro n cs h
  cases hc : st.children node with
  | some cs2 =>
    rw [expand_eq_of_mem iface hc] at h
    exact hok n cs h
  | none =>
    rw [expand_eq_of_not_mem iface hc] at h
    have h2 : Function.update st.children node
        (some (iface.findChildren node)) n = some cs := h
    by_cases hn : n = node
    · subst hn
      rw [Function.update_same] at h2
      exact (Option.some.inj h2).symm
    · rw [Function.update_noteq hn] at h2
      exact hok n cs h2

theorem select_ok_chain (iface : Iface Node State Action) {st : MCTSState Node}
    (hok : childrenOk iface st) :
    ∀ (fuel : ℕ) (node : Node) (path : List Node),
      select iface st fuel node = .ok path →
      path.head? = some node ∧
        List.Chain' (fun a b => b ∈ iface.findChildren a) path := by
  intro fuel
  induction fuel with
  | zero =>
    intro node path h
    rw [select_zero] at h
    exact Except.noConfusion h
  | succ fuel ih =>
    intro node path h
    cases hc : st.children node with
    | none =>
      rw [select_of_none iface fuel hc] at h
      have hp := (Except.ok.inj h).symm
      subst hp
      exact ⟨rfl, List.chain'_singleton node⟩
    | some cs =>
      by_cases ht : (cs.isEmpty || iface.isTerminal node) = true
      · rw [select_of_stop iface fuel hc ht] at h
        have hp := (Except.ok.inj h).symm
        subst hp
        exact ⟨rfl, List.chain'_singleton node⟩
      · rw [Bool.not_eq_true] at ht
        cases hu : (cs.filter fun c => (st.children c).isNone).getLast? with
        | some n =>
          rw [select_of_unexplored iface fuel hc ht hu] at h
          have hp := (Except.ok.inj h).symm
          subst hp
          refine ⟨rfl, List.chain'_pair.mpr ?_⟩
          have hmem := List.mem_filter.mp (List.mem_of_getLast?_eq_some hu)
          rw [← hok node cs hc]
          exact hmem.1
        | none =>
          have hnil : cs.filter (fun c => (st.children c).isNone) = [] :=
            List.getLast?_eq_none_iff.mp hu
          have hall := all_some_of_filter_nil hnil
          obtain ⟨c, rest, rfl⟩ : ∃ c rest, cs = c :: rest := by
            cases cs with
            | nil => simp at ht
            | cons c rest => exact ⟨c, rest, rfl⟩
          rw [select_of_uct iface fuel hc ht hu (uct_select_ok hc hall)] at h
          cases hsel2 : select iface st fuel (maxByKey (uctScore st node) c rest) with
          | error e =>
            rw [hsel2] at h
            simp only [Except.map] at h
            exact Except.noConfusion h
          | ok p =>
            rw [hsel2] at h
            simp only [Except.map] at h
            have hp := (Except.ok.inj h).symm
            subst hp
            obtain ⟨hh2, hch2⟩ := ih _ p hsel2
            refine ⟨rfl, List.chain'_cons'.mpr ⟨?_, hch2⟩⟩
            intro y hy
            rw [hh2, Option.mem_def] at hy
            have hy2 : maxByKey (uctScore st node) c rest = y := Option.some.inj hy
            rw [← hy2, ← hok node (c :: rest) hc]
            exact maxByKey_mem (uctScore st node) rest c

omit [DecidableEq Node] in
theorem chain_pairwise_depth (iface : Iface Node State Action)
    (depth : Node → ℕ)
    (hg : ∀ n c, c ∈ iface.findChildren n → depth c = depth n + 1) :
    ∀ path : List Node,
      List.Chain' (fun a b => b ∈ iface.findChildren a) path →
      path.Pairwise fun a b => depth a < depth b := by
  intro path hch
  haveI : IsTrans Node (fun a b => depth a < depth b) :=
    ⟨fun a b c h1 h2 => lt_trans h1 h2⟩
  refine List.chain'_iff_pairwise.mp (hch.imp ?_)
  intro a b hab
  have := hg a b hab
  omega

theorem pairwise_count_head (depth : Node → ℕ) {path : List Node} {node : Node}
    (hh : path.head? = some node)
    (hp : path.Pairwise fun a b => depth a < depth b) :
    path.count node = 1 := by
  cases path with
  | nil => exact Option.noConfusion hh
  | cons a t =>
    have ha : a = node := by simpa using hh
    subst ha
    have hnot : a ∉ t := by
      intro hat
      have := (List.pairwise_cons.mp hp).1 a hat
      omega
    rw [List.count_cons_self, List.count_eq_zero_of_not_mem hnot]

theorem sum_indicator_le_one (x : Node) :
    ∀ cs0 : List Node, cs0.Nodup →
      (cs0.map fun c => if c = x then (1 : ℕ) else 0).sum ≤ 1
  | [], _ => by simp
  | c :: cs0, hnd => by
    obtain ⟨hc, hnd2⟩ := List.nodup_cons.mp hnd
    rw [List.map_cons, List.sum_cons]
    by_cases hcx : c = x
    · subst hcx
      have hz : (cs0.map fun a => if a = c then (1 : ℕ) else 0) =
          cs0.map fun _ => 0 := by
        apply List.map_congr_left
        intro a ha
        rw [if_neg]
        intro he
        rw [he] at ha
        exact hc ha
      rw [if_pos rfl, hz]
      simp
    · rw [if_neg hcx]
      have h2 := sum_indicator_le_one x cs0 hnd2
      omega

theorem sum_count_le_one (depth : Node → ℕ) (d : ℕ) (cs0 : List Node)
    (hnd : cs0.Nodup) (hd : ∀ c ∈ cs0, depth c = d) :
    ∀ path : List Node, path.Pairwise (fun a b => depth a < depth b) →
      (cs0.map fun c => path.count c).sum ≤ 1 := by
  intro path
  induction path with
  | nil =>
    intro _
    have hz : (cs0.map fun c => ([] : List Node).count c) =
        cs0.map fun _ => 0 := by
      apply List.map_congr_left
      intro c _
      exact List.count_nil c
    rw [hz]
    simp
  | cons x t ih =>
    intro hp
    obtain ⟨hx, hp2⟩ := List.pairwise_cons.mp hp
    by_cases hxm : x ∈ cs0
    · have hnotin : ∀ c ∈ cs0, c ∉ t := by
        intro c hcm hct
        have h1 := hx c hct
        have h2 := hd c hcm
        have h3 := hd x hxm
        omega
      have hmap : (cs0.map fun c => (x :: t).count c) =
          cs0.map fun c => if c = x then 1 else 0 := by
        apply List.map_congr_left
        intro c hcm
        by_cases hcx : c = x
        · subst hcx
          rw [List.count_cons_self,
            List.count_eq_zero_of_not_mem (hnotin c hcm), if_pos rfl]
        · rw [List.count_cons_of_ne hcx,
            List.count_eq_zero_of_not_mem (hnotin c hcm), if_neg hcx]
      rw [hmap]
      exact sum_indicator_le_one x cs0 hnd
    · have hmap : (cs0.map fun c => (x :: t).count c) =
          cs0.map fun c => t.count c := by
        apply List.map_congr_left
        intro c hcm
        have hcx : c ≠ x := fun he => hxm (he ▸ hcm)
        rw [List.count_cons_of_ne hcx]
      rw [hmap]
      exact ih hp2

omit [DecidableEq Node] in
theorem sum_map_add (f g : Node → ℕ) :
    ∀ l : List Node,
      (l.map fun c => f c + g c).sum = (l.map f).sum + (l.map g).sum
  | [] => by simp
  | c :: l => by
    rw [List.map_cons, List.sum_cons, List.map_cons, List.sum_cons,
      List.map_cons, List.sum_cons, sum_map_add f g l]
    omega

theorem rollout_step_inv (iface : Iface Node State Action) (depth : Node → ℕ)
    (hg : ∀ n c, c ∈ iface.findChildren n → depth c = depth n + 1)
    {root : Node} (hnd : (iface.findChildren root).Nodup)
    {k fs fsim : ℕ} {st st2 : MCTSState Node}
    (hinv : childrenOk iface st ∧ st.N root = k ∧ childSum st root ≤ k ∧
      (st.children root = none → ∀ n, st.N n = 0))
    (h : do_rollout iface fs fsim st root = some st2) :
    childrenOk iface st2 ∧ st2.N root = k + 1 ∧ childSum st2 root ≤ k + 1 ∧
      (st2.children root = none → ∀ n, st2.N n = 0) := by
  obtain ⟨hok, hN, hsum, hzero⟩ := hinv
  rw [do_rollout] at h
  cases hsel : select iface st fs root with
  | error e =>
    simp only [hsel] at h
    exact Option.noConfusion h
  | ok path =>
    simp only [hsel] at h
    cases hlast : path.getLast? with
    | none =>
      simp only [hlast] at h
      exact Option.noConfusion h
    | some leaf =>
      simp only [hlast] at h
      cases hsim : simulate iface fsim (iface.nodeState leaf) with
      | none =>
        simp only [hsim] at h
        exact Option.noConfusion h
      | some reward =>
        simp only [hsim] at h
        have hst2 : st2 = backpropagate iface (expand iface st leaf) path reward :=
          (Option.some.inj h).symm
        subst hst2
        obtain ⟨hh, hch⟩ := select_ok_chain iface hok fs root path hsel
        have hpw := chain_pairwise_depth iface depth hg path hch
        have hcnt : path.count root = 1 := pairwise_count_head depth hh hpw
        have hNfun : ∀ n,
            (backpropagate iface (expand iface st leaf) path reward).N n =
              st.N n + path.count n := by
          intro n
          rw [backpropagate_N, expand_N]
        refine ⟨?_, ?_, ?_, ?_⟩
        · intro n cs hcn
          rw [backpropagate_children] at hcn
          exact childrenOk_expand iface hok leaf n cs hcn
        · rw [hNfun root, hN, hcnt]
        · cases hcr : st.children root with
          | some cs0 =>
            have hcs0 : cs0 = iface.findChildren root := hok root cs0 hcr
            have hcr2 : (backpropagate iface (expand iface st leaf) path
                reward).children root = some cs0 := by
              rw [backpropagate_children]
              exact expand_children_of_some iface hcr
            simp only [childSum]
            rw [hcr2, Option.getD_some]
            have hmapeq :
                cs0.map (backpropagate iface (expand iface st leaf) path reward).N =
                  cs0.map fun c => st.N c + path.count c :=
              List.map_congr_left fun c _ => hNfun c
            rw [hmapeq, sum_map_add]
            have hsum1 : (cs0.map st.N).sum ≤ k := by
              have he : childSum st root = (cs0.map st.N).sum := by
                simp only [childSum]
                rw [hcr, Option.getD_some]
              rw [he] at hsum
              exact hsum
            have hdep : ∀ c ∈ cs0, depth c = depth root + 1 := by
              intro c hcm
              exact hg root c (hcs0 ▸ hcm)
            have hndc : cs0.Nodup := hcs0 ▸ hnd
            have hsum2 : (cs0.map fun c => path.count c).sum ≤ 1 :=
              sum_count_le_one depth (depth root + 1) cs0 hndc hdep path hpw
            omega
          | none =>
            have hz := hzero hcr
            have hpath : path = [root] := by
              cases fs with
              | zero =>
                rw [select_zero] at hsel
                exact Except.noConfusion hsel
              | succ f =>
                rw [select_of_none iface f hcr] at hsel
                exact (Except.ok.inj hsel).symm
            have hleaf : leaf = root := by
              rw [hpath] at hlast
              simp at hlast
              exact hlast.symm
            have hcr1 : (expand iface st leaf).children root =
                some (iface.findChildren root) := by
              rw [hleaf, expand_eq_of_not_mem iface hcr]
              exact Function.update_same root _ st.children
            have hcr2 : (backpropagate iface (expand iface st leaf) path
                reward).children root = some (iface.findChildren root) := by
              rw [backpropagate_children]
              exact hcr1
            simp only [childSum]
            rw [hcr2, Option.getD_some]
            have hroot_not : root ∉ iface.findChildren root := by
              intro hmem
              have := hg root root hmem
              omega
            have hzero2 : ∀ c ∈ iface.findChildren root,
                (backpropagate iface (expand iface st leaf) path reward).N c = 0 := by
              intro c hcm
              have hcne : c ≠ root := fun he => hroot_not (he ▸ hcm)
              rw [hNfun c, hz c, hpath, List.count_cons_of_ne hcne, List.count_nil]
            have hmz : ((iface.findChildren root).map
                (backpropagate iface (expand iface st leaf) path reward).N) =
                (iface.findChildren root).map fun _ => 0 :=
              List.map_congr_left fun c hcm => hzero2 c hcm
            rw [hmz]
            simp
        · intro hnone
          exfalso
          rw [backpropagate_children] at hnone
          cases hcr : st.children root with
          | some cs0 =>
            rw [expand_children_of_some iface hcr] at hnone
            exact Option.noConfusion hnone
          | none =>
            have hpath : path = [root] := by
              cases fs with
              | zero =>
                rw [select_zero] at hsel
                exact Except.noConfusion hsel
              | succ f =>
                rw [select_of_none iface f hcr] at hsel
                exact (Except.ok.inj hsel).symm
            have hleaf : leaf = root := by
              rw [hpath] at hlast
              simp at hlast
              exact hlast.symm
            rw [hleaf, expand_eq_of_not_mem iface hcr] at hnone
            have hnone2 : Function.update st.children root
                (some (iface.findChildren root)) root = none := hnone
            rw [Function.update_same] at hnone2
            exact Option.noConfusion hnone2

theorem rollouts_inv (iface : Iface Node State Action) (depth : Node → ℕ)
    (hg : ∀ n c, c ∈ iface.findChildren n → depth c = depth n + 1)
    {root : Node} (hnd : (iface.findChildren root).Nodup) (c : ℝ)
    (fs fsim : ℕ) :
    ∀ (k : ℕ) (st : MCTSState Node),
      rollouts iface fs fsim root k (init Node c) = some st →
      childrenOk iface st ∧ st.N root = k ∧ childSum st root ≤ k ∧
        (st.children root = none → ∀ n, st.N n = 0) := by
  intro k
  induction k with
  | zero =>
    intro st h
    rw [rollouts] at h
    have hst : st = init Node c := (Option.some.inj h).symm
    subst hst
    refine ⟨childrenOk_init iface c, rfl, ?_, fun _ n => rfl⟩
    simp [childSum, init]
  | succ k ih =>
    intro st h
    rw [rollouts] at h
    cases hprev : rollouts iface fs fsim root k (init Node c) with
    | none =>
      simp only [hprev] at h
      exact Option.noConfusion h
    | some stp =>
      simp only [hprev] at h
      exact rollout_step_inv iface depth hg hnd (ih stp hprev) h

end MCTS

/-- C1: from a fresh `MCTS` instance, after `k` completed calls of
`do_rollout(root)` the visit count `N[root]` equals `k` (each rollout visits
the root exactly once) and the sum of `N[child]` over `children[root]` is at
most `N[root]`.  The search nodes are modelled from the spec (the rules
engine is not among the given sources): `find_children()` produces each child
by applying exactly one action to the parent, so children sit one level
deeper than their parent (`depth`), and distinct legal actions yield distinct
successor states (the children list is duplicate-free at the root). -/
theorem do_rollout_root_visits {Node State Action : Type} [DecidableEq Node]
    (iface : Iface Node State Action) (depth : Node → ℕ)
    (hg : ∀ n ch, ch ∈ iface.findChildren n → depth ch = depth n + 1)
    (root : Node) (hnd : (iface.findChildren root).Nodup)
    (c : ℝ) (fs fsim k : ℕ) (st : MCTSState Node)
    (h : MCTS.rollouts iface fs fsim root k (MCTS.init Node c) = some st) :
    st.N root = k ∧ MCTS.childSum st root ≤ st.N root := by
  obtain ⟨-, hN, hsum, -⟩ :=
    MCTS.rollouts_inv iface depth hg hnd c fs fsim k st h
  rw [hN]
  exact ⟨rfl, hsum⟩

/-- Witness for C1: two rollouts from a terminal root in the one-point game. -/
theorem do_rollout_root_visits_wit :
    ∃ st, MCTS.rollouts unitIface 1 0 0 2
        (MCTS.init ℕ MCTS.defaultExplorationWeight) = some st ∧
      st.N 0 = 2 ∧ MCTS.childSum st 0 ≤ st.N 0 := by
  have h1 : (MCTS.rollouts unitIface 1 0 0 2
      (MCTS.init ℕ MCTS.defaultExplorationWeight)).isSome = true := by rfl
  obtain ⟨st, hst⟩ := Option.isSome_iff_exists.mp h1
  obtain ⟨h2, h3⟩ := do_rollout_root_visits unitIface (fun _ => 0)
    (by intro n ch hch; simp [unitIface] at hch) 0 (by simp [unitIface])
    MCTS.defaultExplorationWeight 1 0 2 st hst
  exact ⟨st, hst, h2, h3⟩

/-- C8: the statistics tables `Q`, `N`, `children` are per-instance state,
created empty by the constructor and never global: in a world of instances,
running any sequence of `do_rollout` and `choose` operations, each addressed
to an instance other than `j`, leaves instance `j`'s tables unchanged
(`choose` only reads the tables, so it is the identity on them). -/
theorem mcts_instances_independent {Node State Action : Type} [DecidableEq Node]
    (iface : Iface Node State Action) (fs fsim : ℕ) (c : ℝ) (n : Node)
    (ops : List (ℕ × MCTS.Op Node)) (w w2 : ℕ → MCTSState Node) (j : ℕ)
    (hops : ∀ p ∈ ops, p.1 ≠ j)
    (hrun : MCTS.worldRun iface fs fsim ops w = some w2) :
    ((MCTS.init Node c).Q n = 0 ∧ (MCTS.init Node c).N n = 0 ∧
      (MCTS.init Node c).children n = none) ∧
    w2 j = w j := by
  refine ⟨⟨rfl, rfl, rfl⟩, ?_⟩
  suffices haux : ∀ (ops2 : List (ℕ × MCTS.Op Node)) (w : ℕ → MCTSState Node)
      (w2 : ℕ → MCTSState Node), (∀ p ∈ ops2, p.1 ≠ j) →
      MCTS.worldRun iface fs fsim ops2 w = some w2 → w2 j = w j by
    exact haux ops w w2 hops hrun
  intro ops2
  induction ops2 with
  | nil =>
    intro w w2 _ hrun
    rw [MCTS.worldRun] at hrun
    rw [← Option.some.inj hrun]
  | cons p rest ih =>
    intro w w2 hops hrun
    obtain ⟨i, op⟩ := p
    rw [MCTS.worldRun] at hrun
    cases hap : MCTS.applyOp iface fs fsim (w i) op with
    | none =>
      simp only [hap] at hrun
      exact Option.noConfusion hrun
    | some stn =>
      simp only [hap] at hrun
      have hj := ih (Function.update w i stn) w2
        (fun q hq => hops q (List.mem_cons_of_mem _ hq)) hrun
      have hij : j ≠ i := Ne.symm (hops (i, op) (List.mem_cons_self _ _))
      rw [hj, Function.update_noteq hij]

/-- Witness for C8: one rollout on instance 0 leaves instance 1's fresh
tables untouched. -/
theorem mcts_instances_independent_wit :
    ∃ w2, MCTS.worldRun unitIface 1 0 [(0, MCTS.Op.rollout 0)]
        (fun _ => MCTS.init ℕ MCTS.defaultExplorationWeight) = some w2 ∧
      w2 1 = MCTS.init ℕ MCTS.defaultExplorationWeight := by
  have h1 : (MCTS.worldRun unitIface 1 0 [(0, MCTS.Op.rollout 0)]
      (fun _ => MCTS.init ℕ MCTS.defaultExplorationWeight)).isSome = true := by rfl
  obtain ⟨w2, hw⟩ := Option.isSome_iff_exists.mp h1
  refine ⟨w2, hw, ?_⟩
  exact (mcts_instances_independent unitIface 1 0 MCTS.defaultExplorationWeight 0
    [(0, MCTS.Op.rollout 0)] (fun _ => MCTS.init ℕ MCTS.defaultExplorationWeight)
    w2 1
    (by
      intro p hp
      rw [List.mem_singleton] at hp
      subst hp
      decide) hw).2

end GymLocm